import Mathlib

/-!
Shallow embedding of the listing-cache subsystem of the s3x-explorer
extension: the `S3Cache` class (src/util/cache.ts), the tree-view read
path and node materializer (src/tree/explorer.ts), and the
virtual-filesystem directory listing (src/fs/provider.ts).

JavaScript idioms are modelled explicitly: string truthiness
(`optTruthy`), `Map` semantics as an insertion-ordered association list
(`mapGet`/`mapSet`/`mapDelete`), `Date.now()` as an explicit `now : Int`
argument threaded through the operations, and `Array.prototype.filter`
with `findIndex`-based deduplication (`uniqueByAux`).
-/

namespace S3x

/-- JS truthiness of a `string | undefined` value: `undefined` and the
empty string are falsy. -/
def optTruthy : Option String → Bool
  | none => false
  | some s => !(s == "")

/-- Models `s || undefined`: the empty string collapses to `undefined`. -/
def optOfString (s : String) : Option String :=
  if s == "" then none else some s

/-- Models JS `name.substring(n)` (clamped drop of the first `n`
characters). -/
def strDrop (s : String) (n : Nat) : String :=
  String.mk (s.data.drop n)

/-- Models the JS test `s.endsWith("/")`. -/
def strEndsWithSlash (s : String) : Bool :=
  s.data.getLast? == some '/'

/-- Models JS `s.slice(0, -1)` (drop the final character). -/
def strDropLast (s : String) : String :=
  String.mk s.data.dropLast

/-- Models JS `s.replace(/\/$/, "")`: remove one trailing slash. -/
def dropTrailingSlash (s : String) : String :=
  if strEndsWithSlash s then strDropLast s else s

/-- Models JS `s.includes("/")`. -/
def strContainsSlash (s : String) : Bool :=
  s.data.contains '/'

/-- Auxiliary character-level splitter for `splitSlash`. -/
def splitSlashAux : List Char → List Char → List String
  | [], acc => [String.mk acc.reverse]
  | c :: cs, acc =>
    if c = '/' then String.mk acc.reverse :: splitSlashAux cs []
    else splitSlashAux cs (c :: acc)

/-- Models JS `s.split("/")`. -/
def splitSlash (s : String) : List String :=
  splitSlashAux s.data []

/-- Models JS `parts.join("/")`. -/
def joinSlash : List String → String
  | [] => ""
  | [s] => s
  | s :: rest => s ++ "/" ++ joinSlash rest

/-- One remote object of a listing (`S3Object` in src/types.ts as used by
the cache and the renderers; identity is `key`). -/
structure S3Object where
  key : String
  size : Nat
  lastModified : Option Int := none
  etag : Option String := none
  storageClass : Option String := none
deriving DecidableEq, Repr

/-- One common-prefix (virtual folder) of a listing; the source field is
named `prefix`, which Lean reserves, so it is called `pfx` here. -/
structure S3Prefix where
  pfx : String
deriving DecidableEq, Repr

/-- One cache entry (`CacheEntry` in src/types.ts as stored by
`S3Cache`). -/
structure CacheEntry where
  objects : List S3Object
  prefixes : List S3Prefix
  lastFetched : Int
  isTruncated : Bool
  continuationToken : Option String
deriving DecidableEq, Repr

/-- The result shape of `listObjects` consumed by the read paths. -/
structure ListingResult where
  objects : List S3Object
  prefixes : List S3Prefix
  isTruncated : Bool
  continuationToken : Option String
deriving DecidableEq, Repr

/-! ### JS `Map` semantics over an insertion-ordered association list -/

abbrev CacheMap := List (String × CacheEntry)

/-- `Map.get`. -/
def mapGet (m : CacheMap) (k : String) : Option CacheEntry :=
  (m.find? (fun p => p.1 == k)).map Prod.snd

/-- `Map.set`: replace in place if the key exists, else append. -/
def mapSet (m : CacheMap) (k : String) (v : CacheEntry) : CacheMap :=
  if m.any (fun p => p.1 == k) then
    m.map (fun p => if p.1 == k then (k, v) else p)
  else
    m ++ [(k, v)]

/-- `Map.delete`. -/
def mapDelete (m : CacheMap) (k : String) : CacheMap :=
  m.filter (fun p => !(p.1 == k))

/-! ### `filter` + `findIndex` deduplication (S3Cache.append)

The source removes duplicates with
`arr.filter((obj, index, arr) => arr.findIndex(o => o.key === obj.key) === index)`.
`uniqueByAux` transcribes this literally (an element is kept iff the first
index holding its identity is its own index); `keepFresh` is the
first-occurrence characterization used in proofs. -/

section Dedup

variable {α : Type} (f : α → String)

/-- Index-carrying transcription of the JS dedup filter: `arr` is the
whole array, the second list the suffix still to scan, `i` its starting
index. -/
def uniqueByAux (arr : List α) : List α → Nat → List α
  | [], _ => []
  | x :: xs, i =>
    if arr.findIdx (fun y => f y == f x) == i then
      x :: uniqueByAux arr xs (i + 1)
    else
      uniqueByAux arr xs (i + 1)

/-- `arr.filter((x, i, arr) => arr.findIndex(y => f y === f x) === i)`. -/
def uniqueBy (l : List α) : List α := uniqueByAux f l l 0

/-- Keep each element whose identity has not been seen before; `seen`
accumulates the identities of all scanned elements. -/
def keepFresh : List String → List α → List α
  | _, [] => []
  | seen, x :: xs =>
    if f x ∈ seen then keepFresh (seen ++ [f x]) xs
    else x :: keepFresh (seen ++ [f x]) xs

/-- `findIdx` lands exactly on the head of the suffix iff nothing in the
preceding part satisfies the predicate. -/
theorem findIdx_front {p : α → Bool} (x : α) (hx : p x = true)
    (pre rest : List α) :
    (pre ++ x :: rest).findIdx p = pre.length ↔ ∀ y ∈ pre, p y = false := by
  induction pre with
  | nil => simp [List.findIdx_cons, hx]
  | cons a pre ih =>
    simp only [List.cons_append, List.findIdx_cons, List.length_cons]
    cases ha : p a
    · simp only [cond_false]
      constructor
      · intro h y hy
        rcases List.mem_cons.mp hy with rfl | hy
        · exact ha
        · exact (ih.mp (by omega)) y hy
      · intro h
        have := ih.mpr (fun y hy => h y (List.mem_cons_of_mem _ hy))
        omega
    · simp only [cond_true]
      constructor
      · intro h
        exact absurd h (by omega)
      · intro h
        have := h a (List.mem_cons_self a pre)
        rw [ha] at this
        cases this

/-- The JS dedup filter computes first-occurrence retention. -/
theorem uniqueByAux_eq_keepFresh (rest : List α) : ∀ pre : List α,
    uniqueByAux f (pre ++ rest) rest pre.length = keepFresh f (pre.map f) rest := by
  induction rest with
  | nil => intro pre; rfl
  | cons x xs ih =>
    intro pre
    have hx : (fun y => f y == f x) x = true := by simp
    have hiff := findIdx_front (p := fun y => f y == f x) x hx pre xs
    have harr : pre ++ x :: xs = (pre ++ [x]) ++ xs := by simp
    have hlen : pre.length + 1 = (pre ++ [x]).length := by simp
    have hrec : uniqueByAux f (pre ++ x :: xs) xs (pre.length + 1)
        = keepFresh f (pre.map f ++ [f x]) xs := by
      rw [harr, hlen, ih (pre ++ [x])]
      simp
    by_cases hmem : f x ∈ pre.map f
    · have hcond : ¬ ((pre ++ x :: xs).findIdx (fun y => f y == f x) == pre.length) = true := by
        simp only [beq_iff_eq]
        intro hEq
        obtain ⟨y, hy, hfy⟩ := List.mem_map.mp hmem
        have hfalse := hiff.mp hEq y hy
        rw [hfy] at hfalse
        simp at hfalse
      rw [uniqueByAux, if_neg hcond, keepFresh, if_pos hmem, hrec]
    · have hcond : ((pre ++ x :: xs).findIdx (fun y => f y == f x) == pre.length) = true := by
        simp only [beq_iff_eq]
        refine hiff.mpr ?_
        intro y hy
        simp only [beq_eq_false_iff_ne, ne_eq]
        intro hfy
        exact hmem (List.mem_map.mpr ⟨y, hy, hfy⟩)
      rw [uniqueByAux, if_pos hcond, keepFresh, if_neg hmem, hrec]

/-- `uniqueBy` unfolds to first-occurrence retention with no identity
seen yet. -/
theorem uniqueBy_eq_keepFresh (l : List α) :
    uniqueBy f l = keepFresh f [] l := by
  have h := uniqueByAux_eq_keepFresh f l []
  simpa [uniqueBy] using h

/-- `keepFresh` distributes over append, the second half scanning with
the first half's identities marked as seen. -/
theorem keepFresh_append (xs ys : List α) : ∀ seen : List String,
    keepFresh f seen (xs ++ ys)
      = keepFresh f seen xs ++ keepFresh f (seen ++ xs.map f) ys := by
  induction xs with
  | nil => intro seen; simp [keepFresh]
  | cons x xs ih =>
    intro seen
    simp only [List.cons_append, keepFresh, List.append_eq]
    by_cases hmem : f x ∈ seen
    · rw [if_pos hmem, if_pos hmem, ih (seen ++ [f x])]
      simp
    · rw [if_neg hmem, if_neg hmem, ih (seen ++ [f x])]
      simp

/-- An identity appears in the output iff it appears in the input and was
not already seen. -/
theorem mem_keepFresh_map (a : String) (l : List α) : ∀ seen : List String,
    (a ∈ (keepFresh f seen l).map f ↔ a ∈ l.map f ∧ a ∉ seen) := by
  induction l with
  | nil => intro seen; simp [keepFresh]
  | cons x xs ih =>
    intro seen
    simp only [keepFresh, List.map_cons]
    by_cases hmem : f x ∈ seen
    · rw [if_pos hmem, ih (seen ++ [f x])]
      constructor
      · rintro ⟨hxs, hns⟩
        refine ⟨List.mem_cons_of_mem _ hxs, fun hs => hns (List.mem_append_left _ hs)⟩
      · rintro ⟨hmem2, hns⟩
        rcases List.mem_cons.mp hmem2 with rfl | hxs
        · exact absurd hmem hns
        · refine ⟨hxs, fun hs => ?_⟩
          rcases List.mem_append.mp hs with hs | hs
          · exact hns hs
          · rcases List.mem_singleton.mp hs with rfl
            exact hns hmem
    · rw [if_neg hmem]
      simp only [List.map_cons, List.mem_cons, ih (seen ++ [f x])]
      constructor
      · rintro (rfl | ⟨hxs, hns⟩)
        · exact ⟨Or.inl rfl, hmem⟩
        · refine ⟨Or.inr hxs, fun hs => hns (List.mem_append_left _ hs)⟩
      · rintro ⟨rfl | hxs, hns⟩
        · exact Or.inl rfl
        · by_cases hax : a = f x
          · exact Or.inl hax
          · refine Or.inr ⟨hxs, fun hs => ?_⟩
            rcases List.mem_append.mp hs with hs | hs
            · exact hns hs
            · exact hax (List.mem_singleton.mp hs)

/-- If every identity of the input was already seen, nothing is kept. -/
theorem keepFresh_eq_nil (l : List α) : ∀ seen : List String,
    (∀ y ∈ l, f y ∈ seen) → keepFresh f seen l = [] := by
  induction l with
  | nil => intro seen _; rfl
  | cons x xs ih =>
    intro seen h
    have hx : f x ∈ seen := h x (List.mem_cons_self x xs)
    rw [keepFresh, if_pos hx]
    exact ih (seen ++ [f x])
      (fun y hy => List.mem_append_left _ (h y (List.mem_cons_of_mem _ hy)))

/-- The identities of the output are pairwise distinct. -/
theorem keepFresh_nodup (l : List α) : ∀ seen : List String,
    ((keepFresh f seen l).map f).Nodup := by
  induction l with
  | nil => intro seen; simp [keepFresh]
  | cons x xs ih =>
    intro seen
    rw [keepFresh]
    by_cases hmem : f x ∈ seen
    · rw [if_pos hmem]; exact ih _
    · rw [if_neg hmem]
      simp only [List.map_cons, List.nodup_cons]
      refine ⟨fun hx => ?_, ih _⟩
      have := (mem_keepFresh_map f (f x) xs (seen ++ [f x])).mp hx
      exact this.2 (List.mem_append_right _ (List.mem_singleton.mpr rfl))

/-- A list with pairwise-distinct, unseen identities passes through
unchanged. -/
theorem keepFresh_eq_self (l : List α) : ∀ seen : List String,
    (l.map f).Nodup → (∀ a ∈ l.map f, a ∉ seen) → keepFresh f seen l = l := by
  induction l with
  | nil => intro seen _ _; rfl
  | cons x xs ih =>
    intro seen hnd hout
    have hx : f x ∉ seen := hout (f x) (List.mem_cons_self _ _)
    rw [keepFresh, if_neg hx]
    congr 1
    refine ih (seen ++ [f x]) (List.nodup_cons.mp (by simpa using hnd)).2 ?_
    intro a ha hsa
    rcases List.mem_append.mp hsa with hs | hs
    · exact hout a (List.mem_cons_of_mem _ ha) hs
    · rcases List.mem_singleton.mp hs with rfl
      exact (List.nodup_cons.mp (by simpa using hnd)).1 ha

/-- First-occurrence retention preserves `find?` for any unseen
identity. -/
theorem keepFresh_find? (k : String) (l : List α) : ∀ seen : List String,
    k ∉ seen →
    (keepFresh f seen l).find? (fun y => f y == k) = l.find? (fun y => f y == k) := by
  induction l with
  | nil => intro seen _; rfl
  | cons x xs ih =>
    intro seen hk
    rw [keepFresh]
    by_cases hfx : f x = k
    · have hne : f x ∉ seen := hfx ▸ hk
      rw [if_neg hne]
      simp [List.find?_cons, hfx]
    · have hpred : ((fun y => f y == k) x) = false := by
        simp [hfx]
      by_cases hmem : f x ∈ seen
      · rw [if_pos hmem, ih (seen ++ [f x]) (by
          intro hks
          rcases List.mem_append.mp hks with hs | hs
          · exact hk hs
          · exact hfx (List.mem_singleton.mp hs).symm)]
        simp [List.find?_cons, hpred]
      · rw [if_neg hmem]
        rw [List.find?_cons_of_neg _ (by simp [hfx]), ih (seen ++ [f x]) (by
          intro hks
          rcases List.mem_append.mp hks with hs | hs
          · exact hk hs
          · exact hfx (List.mem_singleton.mp hs).symm)]
        simp [List.find?_cons, hpred]

/-- The deduplicated list has pairwise-distinct identities. -/
theorem uniqueBy_nodup (l : List α) : ((uniqueBy f l).map f).Nodup := by
  rw [uniqueBy_eq_keepFresh]
  exact keepFresh_nodup f l []

/-- Identities surviving deduplication are exactly those of the input. -/
theorem mem_uniqueBy_map (a : String) (l : List α) :
    a ∈ (uniqueBy f l).map f ↔ a ∈ l.map f := by
  rw [uniqueBy_eq_keepFresh, mem_keepFresh_map]
  simp

/-- Merging the same page again is a no-op: deduplicating
`uniqueBy (old ++ page) ++ page` gives back `uniqueBy (old ++ page)`. -/
theorem uniqueBy_append_self (old page : List α) :
    uniqueBy f (uniqueBy f (old ++ page) ++ page) = uniqueBy f (old ++ page) := by
  rw [uniqueBy_eq_keepFresh (l := uniqueBy f (old ++ page) ++ page),
    keepFresh_append]
  rw [keepFresh_eq_self f (uniqueBy f (old ++ page)) [] (uniqueBy_nodup f _) (by simp)]
  rw [keepFresh_eq_nil f page]
  · simp
  · intro y hy
    simp only [List.nil_append]
    exact (mem_uniqueBy_map f (f y) (old ++ page)).mpr
      (by simp [List.mem_map]; exact Or.inr ⟨y, hy, rfl⟩)

/-- Deduplication keeps, for every identity, the first occurrence of the
input (`find?` is preserved). -/
theorem uniqueBy_find? (k : String) (l : List α) :
    (uniqueBy f l).find? (fun y => f y == k) = l.find? (fun y => f y == k) := by
  rw [uniqueBy_eq_keepFresh]
  exact keepFresh_find? f k l [] (by simp)

/-- When the existing entries already have distinct identities, they
survive merging as an unchanged initial segment. -/
theorem uniqueBy_append_of_nodup (old page : List α) (h : (old.map f).Nodup) :
    uniqueBy f (old ++ page) = old ++ keepFresh f (old.map f) page := by
  rw [uniqueBy_eq_keepFresh, keepFresh_append,
    keepFresh_eq_self f old [] h (by simp)]
  simp

end Dedup

/-! ### The `S3Cache` class (src/util/cache.ts) -/

/-- Default TTL: 5 minutes in milliseconds. -/
def DEFAULT_TTL : Int := 5 * 60 * 1000

/-- The cache object: the private `Map` plus the configured `ttl`. -/
structure S3Cache where
  cache : CacheMap
  ttl : Int
deriving Repr

/-- A fresh cache with the default TTL, as built by the constructor. -/
def S3Cache.mk0 : S3Cache := { cache := [], ttl := DEFAULT_TTL }

/-- `getCacheKey(bucket, prefix)` = `` `${bucket}:${prefix || ""}` ``. -/
def getCacheKey (bucket : String) (pfx : Option String) : String :=
  bucket ++ ":" ++ (pfx.getD "")

/-- `S3Cache.get`: returns the entry when present and fresh; deletes it
and returns null when present but expired (`Date.now()` is the explicit
`now`). The updated map is returned alongside the result. -/
def S3Cache.get (s : S3Cache) (now : Int) (bucket : String) (pfx : Option String) :
    Option CacheEntry × S3Cache :=
  let key := getCacheKey bucket pfx
  match mapGet s.cache key with
  | none => (none, s)
  | some entry =>
    if now - entry.lastFetched > s.ttl then
      (none, { s with cache := mapDelete s.cache key })
    else
      (some entry, s)

/-- `S3Cache.set`: wholesale replacement of the entry for the key,
stamping `lastFetched = now`. -/
def S3Cache.set (s : S3Cache) (now : Int) (bucket : String)
    (objects : List S3Object) (prefixes : List S3Prefix)
    (isTruncated : Bool) (continuationToken : Option String)
    (pfx : Option String) : S3Cache :=
  let key := getCacheKey bucket pfx
  let entry : CacheEntry :=
    { objects := objects, prefixes := prefixes, lastFetched := now,
      isTruncated := isTruncated, continuationToken := continuationToken }
  { s with cache := mapSet s.cache key entry }

/-- `S3Cache.invalidate`: with a truthy `prefix`, deletes the exact key
and then each "parent" key obtained by re-joining the leading path
segments (`parts.slice(0, i).join("/")` for `i = parts.length - 1 .. 0`);
otherwise deletes every key of the bucket. -/
def S3Cache.invalidate (s : S3Cache) (bucket : String) (pfx : Option String) :
    S3Cache :=
  if optTruthy pfx then
    let p := pfx.getD ""
    let key := getCacheKey bucket pfx
    let c1 := mapDelete s.cache key
    let prefixPath := if strEndsWithSlash p then strDropLast p else p
    let parentParts := splitSlash prefixPath
    let c2 := ((List.range parentParts.length).reverse).foldl
      (fun c i =>
        mapDelete c (getCacheKey bucket (optOfString (joinSlash (parentParts.take i)))))
      c1
    { s with cache := c2 }
  else
    { s with cache := s.cache.filter (fun kv => !(kv.1.startsWith (bucket ++ ":"))) }

/-- `S3Cache.invalidateAll`. -/
def S3Cache.invalidateAll (s : S3Cache) : S3Cache :=
  { s with cache := [] }

/-- `S3Cache.append`: merge a continuation page into an existing entry,
deduplicating objects by `key` and prefixes by `prefix` and overwriting
`lastFetched`/`isTruncated`/`continuationToken`; fall back to `set` when
the key has no entry. -/
def S3Cache.append (s : S3Cache) (now : Int) (bucket : String)
    (objects : List S3Object) (prefixes : List S3Prefix)
    (isTruncated : Bool) (continuationToken : Option String)
    (pfx : Option String) : S3Cache :=
  let key := getCacheKey bucket pfx
  match mapGet s.cache key with
  | some existing =>
    let allObjects := existing.objects ++ objects
    let allPrefixes := existing.prefixes ++ prefixes
    let uniqueObjects := uniqueBy (fun o => o.key) allObjects
    let uniquePrefixes := uniqueBy (fun q => q.pfx) allPrefixes
    let entry : CacheEntry :=
      { objects := uniqueObjects, prefixes := uniquePrefixes,
        lastFetched := now, isTruncated := isTruncated,
        continuationToken := continuationToken }
    { s with cache := mapSet s.cache key entry }
  | none =>
    s.set now bucket objects prefixes isTruncated continuationToken pfx

/-- `S3Cache.getStats`: entry count and key list. -/
def S3Cache.getStats (s : S3Cache) : Nat × List String :=
  (s.cache.length, s.cache.map Prod.fst)

/-! ### Association-list facts about the `Map` model -/

theorem mapGet_nil (k : String) : mapGet [] k = none := rfl

theorem mapGet_cons (a : String × CacheEntry) (m : CacheMap) (k : String) :
    mapGet (a :: m) k = if a.1 == k then some a.2 else mapGet m k := by
  unfold mapGet
  rw [List.find?_cons]
  cases h : (a.1 == k) <;> simp [h]

theorem mapGet_append_self (m : CacheMap) (k : String) (v : CacheEntry)
    (h : ∀ p ∈ m, p.1 ≠ k) : mapGet (m ++ [(k, v)]) k = some v := by
  induction m with
  | nil => simp [mapGet_cons]
  | cons a m ih =>
    have ha : (a.1 == k) = false := by
      simp only [beq_eq_false_iff_ne, ne_eq]
      exact h a (List.mem_cons_self a m)
    rw [List.cons_append, mapGet_cons, if_neg (by simp [ha])]
    exact ih (fun p hp => h p (List.mem_cons_of_mem _ hp))

theorem mapGet_map_replace (m : CacheMap) (k : String) (v : CacheEntry) :
    mapGet (m.map (fun p => if p.1 == k then (k, v) else p)) k
      = (mapGet m k).map (fun _ => v) := by
  induction m with
  | nil => rfl
  | cons a m ih =>
    by_cases ha : a.1 = k
    · have hif : (if a.1 == k then ((k, v) : String × CacheEntry) else a) = (k, v) := by
        simp [ha]
      rw [List.map_cons, hif, mapGet_cons, mapGet_cons]
      simp [ha]
    · have hif : (if a.1 == k then ((k, v) : String × CacheEntry) else a) = a := by
        simp [ha]
      rw [List.map_cons, hif, mapGet_cons, mapGet_cons, if_neg (by simp [ha]),
        if_neg (by simp [ha])]
      exact ih

theorem any_key_iff_isSome (m : CacheMap) (k : String) :
    m.any (fun p => p.1 == k) = true ↔ (mapGet m k).isSome := by
  rw [List.any_eq_true]
  unfold mapGet
  rw [Option.isSome_map']
  rw [List.find?_isSome]

/-- `Map.set` then `Map.get` of the same key yields the stored value. -/
theorem mapGet_mapSet_self (m : CacheMap) (k : String) (v : CacheEntry) :
    mapGet (mapSet m k v) k = some v := by
  unfold mapSet
  by_cases h : m.any (fun p => p.1 == k) = true
  · rw [if_pos h, mapGet_map_replace]
    have hs := (any_key_iff_isSome m k).mp h
    obtain ⟨w, hw⟩ := Option.isSome_iff_exists.mp hs
    rw [hw]
    rfl
  · rw [if_neg h]
    refine mapGet_append_self m k v ?_
    intro p hp hpk
    exact h (List.any_eq_true.mpr ⟨p, hp, by simp [hpk]⟩)

theorem mapGet_map_replace_ne (m : CacheMap) (k k' : String) (v : CacheEntry)
    (hne : k' ≠ k) :
    mapGet (m.map (fun p => if p.1 == k then (k, v) else p)) k' = mapGet m k' := by
  induction m with
  | nil => rfl
  | cons a m ih =>
    by_cases ha : a.1 = k
    · have hif : (if a.1 == k then ((k, v) : String × CacheEntry) else a) = (k, v) := by
        simp [ha]
      rw [List.map_cons, hif, mapGet_cons, mapGet_cons]
      have h1 : ¬ k = k' := fun hk => hne hk.symm
      have h2 : ¬ a.1 = k' := ha ▸ h1
      rw [if_neg (by simp [h1]), if_neg (by simp [h2])]
      exact ih
    · have hif : (if a.1 == k then ((k, v) : String × CacheEntry) else a) = a := by
        simp [ha]
      rw [List.map_cons, hif, mapGet_cons, mapGet_cons]
      by_cases hk : a.1 = k'
      · rw [if_pos (by simp [hk]), if_pos (by simp [hk])]
      · rw [if_neg (by simp [hk]), if_neg (by simp [hk])]
        exact ih

theorem mapGet_append_ne (m : CacheMap) (k k' : String) (v : CacheEntry)
    (hne : k' ≠ k) : mapGet (m ++ [(k, v)]) k' = mapGet m k' := by
  induction m with
  | nil =>
    have h1 : ¬ k = k' := fun hk => hne hk.symm
    rw [List.nil_append, mapGet_cons, if_neg (by simp [h1])]
  | cons a m ih =>
    rw [List.cons_append, mapGet_cons, mapGet_cons]
    by_cases hk : a.1 = k'
    · rw [if_pos (by simp [hk]), if_pos (by simp [hk])]
    · rw [if_neg (by simp [hk]), if_neg (by simp [hk])]
      exact ih

/-- `Map.set` leaves every other key untouched. -/
theorem mapGet_mapSet_ne (m : CacheMap) (k k' : String) (v : CacheEntry)
    (hne : k' ≠ k) : mapGet (mapSet m k v) k' = mapGet m k' := by
  unfold mapSet
  by_cases h : m.any (fun p => p.1 == k) = true
  · rw [if_pos h]
    exact mapGet_map_replace_ne m k k' v hne
  · rw [if_neg h]
    exact mapGet_append_ne m k k' v hne

/-- Deleting an existing key from a duplicate-free map removes exactly
one pair. -/
theorem mapDelete_length (m : CacheMap) (k : String) (e : CacheEntry)
    (hnd : (m.map Prod.fst).Nodup) (h : mapGet m k = some e) :
    (mapDelete m k).length + 1 = m.length := by
  induction m with
  | nil => simp [mapGet_nil] at h
  | cons a m ih =>
    rw [List.map_cons, List.nodup_cons] at hnd
    by_cases ha : a.1 = k
    · have hrest : ∀ p ∈ m, p.1 ≠ k := by
        intro p hp hpk
        refine hnd.1 ?_
        rw [ha]
        exact List.mem_map.mpr ⟨p, hp, hpk⟩
      have hdel : mapDelete m k = m := by
        unfold mapDelete
        refine List.filter_eq_self.mpr ?_
        intro p hp
        simp [hrest p hp]
      unfold mapDelete
      rw [List.filter_cons, if_neg (by simp [ha])]
      rw [show m.filter (fun p => !(p.1 == k)) = mapDelete m k from rfl, hdel]
      simp
    · have hget : mapGet m k = some e := by
        rw [mapGet_cons] at h
        simpa [ha] using h
      unfold mapDelete
      rw [List.filter_cons, if_pos (by simp [ha])]
      rw [show m.filter (fun p => !(p.1 == k)) = mapDelete m k from rfl]
      have := ih hnd.2 hget
      simp only [List.length_cons]
      omega

/-- Members of `Map.set` output come from the input or are the new
pair. -/
theorem mem_mapSet (m : CacheMap) (k : String) (v : CacheEntry)
    (x : String × CacheEntry) (hx : x ∈ mapSet m k v) : x ∈ m ∨ x = (k, v) := by
  unfold mapSet at hx
  by_cases h : m.any (fun p => p.1 == k) = true
  · rw [if_pos h] at hx
    obtain ⟨a, ha, hax⟩ := List.mem_map.mp hx
    by_cases hk : a.1 = k
    · right
      rw [← hax]
      simp [hk]
    · left
      have : (a.1 == k) = false := by simp [hk]
      rw [← hax]
      simp [this, ha]
  · rw [if_neg h] at hx
    rcases List.mem_append.mp hx with h1 | h1
    · exact Or.inl h1
    · exact Or.inr (List.mem_singleton.mp h1)

/-- `Map.delete` only removes pairs. -/
theorem mem_mapDelete (m : CacheMap) (k : String) (x : String × CacheEntry)
    (hx : x ∈ mapDelete m k) : x ∈ m :=
  List.mem_of_mem_filter hx

/-- A fold of deletions only removes pairs. -/
theorem mem_foldl_mapDelete (g : Nat → String) (x : String × CacheEntry) :
    ∀ (ks : List Nat) (c : CacheMap),
    x ∈ ks.foldl (fun c i => mapDelete c (g i)) c → x ∈ c := by
  intro ks
  induction ks with
  | nil => intro c hx; exact hx
  | cons i ks ih =>
    intro c hx
    exact mem_mapDelete _ _ _ (ih (mapDelete c (g i)) hx)

/-! ### Node materializer (src/tree/explorer.ts) -/

/-- Modelled from the spec: the display-node constructors of
src/tree/nodes.ts (a file absent from the sources). Per spec §3,
`DisplayNode` is the polymorphic render result with variants
`FolderNode`, `ObjectNode` and `LoadMoreNode`; each constructor records
exactly the arguments the materializer passes (`createPrefixNode(bucket,
prefixItem, prefix)`, `createObjectNode(bucket, object, prefix)`,
`createLoadMoreNode(bucket, token, prefix)`). -/
inductive DisplayNode where
  | folder (bucket : String) (item : S3Prefix) (parent : Option String)
  | object (bucket : String) (obj : S3Object) (parent : Option String)
  | loadMore (bucket : String) (token : String) (parent : Option String)
deriving DecidableEq, Repr

/-- Whether a node is the load-more sentinel. -/
def DisplayNode.isLoadMore : DisplayNode → Bool
  | .loadMore _ _ _ => true
  | _ => false

/-- `S3Explorer.createNodes`: folders first, then objects, then the
sentinel when `result.isTruncated && result.continuationToken` is
truthy. -/
def createNodes (bucket : String) (result : ListingResult) (parent : Option String) :
    List DisplayNode :=
  (result.prefixes.map fun q => DisplayNode.folder bucket q parent)
    ++ (result.objects.map fun o => DisplayNode.object bucket o parent)
    ++ (if result.isTruncated && optTruthy result.continuationToken then
          [DisplayNode.loadMore bucket (result.continuationToken.getD "") parent]
        else [])

/-- `S3Explorer.createNodesFromCache`: the identical rendering applied to
a cache entry. -/
def createNodesFromCache (bucket : String) (cached : CacheEntry) (parent : Option String) :
    List DisplayNode :=
  (cached.prefixes.map fun q => DisplayNode.folder bucket q parent)
    ++ (cached.objects.map fun o => DisplayNode.object bucket o parent)
    ++ (if cached.isTruncated && optTruthy cached.continuationToken then
          [DisplayNode.loadMore bucket (cached.continuationToken.getD "") parent]
        else [])

/-! ### Read paths, instrumented with a fetch counter

The remote call `listObjects(bucket, prefix?, continuationToken?)` is an
oracle parameter; each embedded read path returns how many times it
invoked the oracle, making "consults the cache before fetching"
checkable. -/

/-- The `listObjects` oracle: bucket, prefix, continuation token. -/
abbrev ListFn := String → Option String → Option String → ListingResult

/-- Shared fetch step of `S3Explorer.getBucketContents` /
`getPrefixContents`: call `listObjects`, then `append` (continuation) or
`set` (first page), then render fresh nodes. -/
def fetchAndPopulate (env : ListFn) (s : S3Cache) (now : Int) (bucket : String)
    (pfx : Option String) (continuationToken : Option String) :
    List DisplayNode × S3Cache × Nat :=
  let result := env bucket pfx continuationToken
  let s2 :=
    if optTruthy continuationToken then
      s.append now bucket result.objects result.prefixes result.isTruncated
        result.continuationToken pfx
    else
      s.set now bucket result.objects result.prefixes result.isTruncated
        result.continuationToken pfx
  (createNodes bucket result pfx, s2, 1)

/-- `S3Explorer.getBucketContents`: consult the cache; on a fresh hit
with no continuation token, render from cache without fetching; otherwise
fetch and populate. -/
def getBucketContentsM (env : ListFn) (s : S3Cache) (now : Int) (bucket : String)
    (continuationToken : Option String) : List DisplayNode × S3Cache × Nat :=
  let r := s.get now bucket none
  match r.1 with
  | some cached =>
    if optTruthy continuationToken then
      fetchAndPopulate env r.2 now bucket none continuationToken
    else
      (createNodesFromCache bucket cached none, r.2, 0)
  | none => fetchAndPopulate env r.2 now bucket none continuationToken

/-- `S3Explorer.getPrefixContents`: the same pattern for a folder key. -/
def getPrefixContentsM (env : ListFn) (s : S3Cache) (now : Int) (bucket : String)
    (pfx : String) (continuationToken : Option String) :
    List DisplayNode × S3Cache × Nat :=
  let r := s.get now bucket (some pfx)
  match r.1 with
  | some cached =>
    if optTruthy continuationToken then
      fetchAndPopulate env r.2 now bucket (some pfx) continuationToken
    else
      (createNodesFromCache bucket cached (some pfx), r.2, 0)
  | none => fetchAndPopulate env r.2 now bucket (some pfx) continuationToken

/-! ### Virtual-filesystem directory listing (src/fs/provider.ts) -/

/-- The editor's directory/file tag for `readDirectory` entries. -/
inductive FileType where
  | file
  | directory
deriving DecidableEq, Repr

/-- Per-prefix entry of `readDirectory`: strip the parent prefix, strip
the trailing slash, drop the entry if its name became empty. -/
def dirEntryOfPrefix (pfx : Option String) (q : S3Prefix) : Option (String × FileType) :=
  let name := q.pfx
  let name := if optTruthy pfx then strDrop name ((pfx.getD "").length) else name
  let name := dropTrailingSlash name
  if name == "" then none else some (name, FileType.directory)

/-- Per-object entry of `readDirectory`: strip the parent prefix, skip
non-direct children (a remaining `/`), drop the entry if its name is
empty. -/
def dirEntryOfObject (pfx : Option String) (o : S3Object) : Option (String × FileType) :=
  let name := o.key
  let name := if optTruthy pfx then strDrop name ((pfx.getD "").length) else name
  if strContainsSlash name then none
  else if name == "" then none
  else some (name, FileType.file)

/-- The entry list `readDirectory` builds from a listing result:
prefixes (folders) first, then objects (files). -/
def readDirEntries (pfx : Option String) (result : ListingResult) :
    List (String × FileType) :=
  result.prefixes.filterMap (dirEntryOfPrefix pfx)
    ++ result.objects.filterMap (dirEntryOfObject pfx)

/-- `S3FileSystemProvider.readDirectory` after URI parsing: normalize the
key to a prefix, call `listObjects` unconditionally (the provider holds
no reference to the cache), and build the entries. The second component
counts `listObjects` calls. -/
def readDirectoryM (env : ListFn) (bucket : String) (key : Option String) :
    List (String × FileType) × Nat :=
  let pfx := if optTruthy key then key else none
  let result := env bucket pfx none
  (readDirEntries pfx result, 1)

/-! ### Concrete fixtures used in evaluations and witnesses -/

/-- An empty, never-truncated cache entry fetched at time 0. -/
def entryEmpty : CacheEntry :=
  { objects := [], prefixes := [], lastFetched := 0,
    isTruncated := false, continuationToken := none }

/-- Two objects with distinct keys. -/
def obj1 : S3Object := { key := "o1", size := 1 }

def obj2 : S3Object := { key := "o2", size := 2 }

/-- A cache populated for keys `(b, "")`, `(b, "a/")`, `(b, "a/c/")` and
`(b, "z/")`, as in the spec's ancestor-cascade scenario. -/
def cacheC1 : S3Cache :=
  { cache := [("b:", entryEmpty), ("b:a/", entryEmpty),
              ("b:a/c/", entryEmpty), ("b:z/", entryEmpty)],
    ttl := DEFAULT_TTL }

/-! ## Claims -/

/-- C1: the ancestor cascade of `invalidate` misses the slash-terminated
keys entries are actually cached under. With entries cached for
`(b, "")`, `(b, "a/")`, `(b, "a/c/")` and `(b, "z/")`,
`invalidate("b", "a/c/x.txt")` deletes the exact key and the rebuilt
parent keys `"b:a/c"`, `"b:a"`, `"b:"` — so only the bucket-root entry
disappears, while the entries for `(b, "a/")` and `(b, "a/c/")` that the
claim requires to be removed survive. -/
theorem c1_invalidate_misses_slashed_ancestors :
    mapGet cacheC1.cache "b:a/" = some entryEmpty
      ∧ mapGet cacheC1.cache "b:a/c/" = some entryEmpty
      ∧ ((cacheC1.invalidate "b" (some "a/c/x.txt")).cache.map Prod.fst)
          = ["b:a/", "b:a/c/", "b:z/"] := by
  refine ⟨by decide, by decide, by decide⟩

/-- C5 (counterexample): a single `set` call with `isTruncated = false`
and a present continuation token yields a reachable entry violating the
claimed invariant. -/
theorem c5_set_breaks_token_invariant :
    mapGet ((S3Cache.mk0.set 0 "b" [] [] false (some "tok") none).cache) "b:"
      = some { objects := [], prefixes := [], lastFetched := 0,
               isTruncated := false, continuationToken := some "tok" } := by
  decide

/-- A cache entry carries a continuation token exactly when it is marked
truncated. -/
def entryTokenInv (e : CacheEntry) : Prop :=
  (e.continuationToken ≠ none) ↔ e.isTruncated = true

/-- Every entry of the cache satisfies `entryTokenInv`. -/
def cacheTokenInv (s : S3Cache) : Prop :=
  ∀ kv ∈ s.cache, entryTokenInv kv.2

/-- C5 (amended): the cache operations preserve the token/truncation
invariant provided each `set`/`append` call's own arguments satisfy it
(`continuationToken` argument present iff `isTruncated` argument true);
`get`, `invalidate` and `invalidateAll` preserve it unconditionally. -/
theorem c5_token_invariant_preserved :
    (∀ (s : S3Cache) (now : Int) (b : String) (objs : List S3Object)
        (prefs : List S3Prefix) (t : Bool) (tok : Option String) (p : Option String),
      cacheTokenInv s → ((tok ≠ none) ↔ t = true) →
      cacheTokenInv (s.set now b objs prefs t tok p))
    ∧ (∀ (s : S3Cache) (now : Int) (b : String) (objs : List S3Object)
        (prefs : List S3Prefix) (t : Bool) (tok : Option String) (p : Option String),
      cacheTokenInv s → ((tok ≠ none) ↔ t = true) →
      cacheTokenInv (s.append now b objs prefs t tok p))
    ∧ (∀ (s : S3Cache) (now : Int) (b : String) (p : Option String),
      cacheTokenInv s → cacheTokenInv ((s.get now b p).2))
    ∧ (∀ (s : S3Cache) (b : String) (p : Option String),
      cacheTokenInv s → cacheTokenInv (s.invalidate b p))
    ∧ (∀ s : S3Cache, cacheTokenInv s.invalidateAll) := by
  have hset : ∀ (s : S3Cache) (now : Int) (b : String) (objs : List S3Object)
      (prefs : List S3Prefix) (t : Bool) (tok : Option String) (p : Option String),
      cacheTokenInv s → ((tok ≠ none) ↔ t = true) →
      cacheTokenInv (s.set now b objs prefs t tok p) := by
    intro s now b objs prefs t tok p hs harg kv hkv
    rcases mem_mapSet _ _ _ kv hkv with h | h
    · exact hs kv h
    · rw [h]
      exact harg
  refine ⟨hset, ?_, ?_, ?_, ?_⟩
  · intro s now b objs prefs t tok p hs harg kv hkv
    cases hm : mapGet s.cache (getCacheKey b p) with
    | some existing =>
      simp only [S3Cache.append, hm] at hkv
      rcases mem_mapSet _ _ _ kv hkv with h | h
      · exact hs kv h
      · rw [h]
        exact harg
    | none =>
      simp only [S3Cache.append, hm] at hkv
      exact hset s now b objs prefs t tok p hs harg kv hkv
  · intro s now b p hs kv hkv
    cases hm : mapGet s.cache (getCacheKey b p) with
    | none =>
      simp only [S3Cache.get, hm] at hkv
      exact hs kv hkv
    | some entry =>
      simp only [S3Cache.get, hm] at hkv
      by_cases hst : now - entry.lastFetched > s.ttl
      · rw [if_pos hst] at hkv
        exact hs kv (mem_mapDelete _ _ _ hkv)
      · rw [if_neg hst] at hkv
        exact hs kv hkv
  · intro s b p hs kv hkv
    unfold S3Cache.invalidate at hkv
    by_cases ht : optTruthy p = true
    · rw [if_pos ht] at hkv
      simp only at hkv
      exact hs kv (mem_mapDelete _ _ _ (mem_foldl_mapDelete _ kv _ _ hkv))
    · rw [if_neg ht] at hkv
      exact hs kv (List.mem_of_mem_filter hkv)
  · intro s kv hkv
    cases hkv

/-- A cache state satisfying the invariant vacuously (it is empty), used
to instantiate the amended C5 theorem. -/
theorem c5_token_invariant_witness :
    cacheTokenInv (S3Cache.mk0.set 0 "w" [] [] true (some "t") none) := by
  refine c5_token_invariant_preserved.1 S3Cache.mk0 0 "w" [] [] true (some "t") none ?_ ?_
  · intro kv hkv
    cases hkv
  · simp

/-- C6 (counterexample): a listing marked truncated but carrying no
continuation token renders no `LoadMoreNode` at all, refuting
"a `LoadMoreNode` is present iff `isTruncated` is true". -/
theorem c6_truncated_without_token_has_no_sentinel :
    ({ objects := [], prefixes := [], isTruncated := true,
       continuationToken := none : ListingResult }).isTruncated = true
      ∧ createNodes "b"
          { objects := [], prefixes := [], isTruncated := true,
            continuationToken := none } none = [] := by
  refine ⟨rfl, by decide⟩

/-- C6 (amended): the materializer emits exactly one `LoadMoreNode` iff
`isTruncated` is true **and** the continuation token is present and
non-empty (the JS truthiness test `result.isTruncated &&
result.continuationToken`), and any emitted sentinel carries the entry's
token; with `isTruncated = false` no sentinel is emitted regardless of
the token. -/
theorem c6_sentinel_iff_truncated_and_token (b : String) (p : Option String)
    (r : ListingResult) :
    ((createNodes b r p).countP DisplayNode.isLoadMore
        = if r.isTruncated && optTruthy r.continuationToken then 1 else 0)
      ∧ (∀ t, DisplayNode.loadMore b t p ∈ createNodes b r p →
          r.continuationToken = some t) := by
  have hfold : (r.prefixes.map fun q => DisplayNode.folder b q p).countP
      DisplayNode.isLoadMore = 0 := by
    rw [List.countP_map]
    refine List.countP_eq_zero.mpr ?_
    intro q _
    simp [Function.comp, DisplayNode.isLoadMore]
  have hobj : (r.objects.map fun o => DisplayNode.object b o p).countP
      DisplayNode.isLoadMore = 0 := by
    rw [List.countP_map]
    refine List.countP_eq_zero.mpr ?_
    intro o _
    simp [Function.comp, DisplayNode.isLoadMore]
  constructor
  · cases hc : (r.isTruncated && optTruthy r.continuationToken) <;>
      simp [createNodes, hc, List.countP_append, hfold, hobj,
        DisplayNode.isLoadMore]
  · intro t ht
    unfold createNodes at ht
    rcases List.mem_append.mp ht with h | h
    · rcases List.mem_append.mp h with h1 | h1
      · obtain ⟨q, _, heq⟩ := List.mem_map.mp h1
        simp at heq
      · obtain ⟨o, _, heq⟩ := List.mem_map.mp h1
        simp at heq
    · by_cases hc : (r.isTruncated && optTruthy r.continuationToken) = true
      · rw [if_pos hc] at h
        have heq := List.mem_singleton.mp h
        have htok : optTruthy r.continuationToken = true :=
          (Bool.and_eq_true _ _ |>.mp hc).2
        cases hr : r.continuationToken with
        | none =>
          rw [hr] at htok
          cases htok
        | some sVal =>
          rw [hr] at heq
          injection heq with hb htv hp
          have hts : t = sVal := by simpa using htv
          rw [hts]
      · rw [if_neg hc] at h
        cases h

/-- Instantiation of the amended C6 theorem: a truncated result with
token `"tok"` renders exactly one sentinel. -/
theorem c6_sentinel_witness :
    (createNodes "b"
        { objects := [], prefixes := [], isTruncated := true,
          continuationToken := some "tok" } none).countP DisplayNode.isLoadMore = 1 := by
  have h := (c6_sentinel_iff_truncated_and_token "b" none
    { objects := [], prefixes := [], isTruncated := true,
      continuationToken := some "tok" }).1
  simpa [optTruthy] using h

/-- The prefixes of the C7 ordering scenario. -/
def pfx1 : S3Prefix := { pfx := "p1/" }

def pfx2 : S3Prefix := { pfx := "p2/" }

/-- The listing of the C7 ordering scenario: two folders, two objects,
truncated with token `"tok"`. -/
def resC7 : ListingResult :=
  { objects := [obj1, obj2], prefixes := [pfx1, pfx2],
    isTruncated := true, continuationToken := some "tok" }

/-- C7: materialized nodes are the folders in entry order, then the
objects in entry order, then at most one load-more sentinel (and no
sentinel earlier); on the scenario entry the output is exactly
`[Folder p1, Folder p2, Object o1, Object o2, LoadMore "tok"]`. -/
theorem c7_materializer_ordering :
    (∀ (b : String) (p : Option String) (r : ListingResult),
      ((createNodes b r p).take r.prefixes.length
          = r.prefixes.map fun q => DisplayNode.folder b q p)
        ∧ (((createNodes b r p).drop r.prefixes.length).take r.objects.length
            = r.objects.map fun o => DisplayNode.object b o p)
        ∧ ((createNodes b r p).drop (r.prefixes.length + r.objects.length)).length ≤ 1
        ∧ ((createNodes b r p).take (r.prefixes.length + r.objects.length)).countP
            DisplayNode.isLoadMore = 0)
      ∧ createNodes "b" resC7 none
          = [DisplayNode.folder "b" pfx1 none, DisplayNode.folder "b" pfx2 none,
             DisplayNode.object "b" obj1 none, DisplayNode.object "b" obj2 none,
             DisplayNode.loadMore "b" "tok" none] := by
  constructor
  · intro b p r
    have hA : (r.prefixes.map fun q => DisplayNode.folder b q p).length
        = r.prefixes.length := by simp
    have hB : (r.objects.map fun o => DisplayNode.object b o p).length
        = r.objects.length := by simp
    have hAB : ((r.prefixes.map fun q => DisplayNode.folder b q p)
        ++ (r.objects.map fun o => DisplayNode.object b o p)).length
        = r.prefixes.length + r.objects.length := by simp
    refine ⟨?_, ?_, ?_, ?_⟩
    · rw [createNodes, List.append_assoc, List.take_left' hA]
    · rw [createNodes, List.append_assoc, List.drop_left' hA, List.take_left' hB]
    · rw [createNodes, List.drop_left' hAB]
      split <;> simp
    · rw [createNodes, List.take_left' hAB]
      simp [List.countP_append, List.countP_map, Function.comp, DisplayNode.isLoadMore]
  · decide

/-- The cache entry matching `resC7`, fetched at time 7. -/
def entC8 : CacheEntry :=
  { objects := [obj1, obj2], prefixes := [pfx1, pfx2], lastFetched := 7,
    isTruncated := true, continuationToken := some "tok" }

/-- C8: fresh-from-network and from-cache rendering agree on any listing
result and cache entry with equal objects, prefixes, truncation flag and
continuation token. -/
theorem c8_createNodes_eq_fromCache (b : String) (p : Option String)
    (r : ListingResult) (e : CacheEntry)
    (h1 : r.objects = e.objects) (h2 : r.prefixes = e.prefixes)
    (h3 : r.isTruncated = e.isTruncated)
    (h4 : r.continuationToken = e.continuationToken) :
    createNodes b r p = createNodesFromCache b e p := by
  unfold createNodes createNodesFromCache
  rw [h1, h2, h3, h4]

/-- Instantiation of C8 on the scenario listing and its matching cache
entry. -/
theorem c8_createNodes_eq_fromCache_witness :
    createNodes "b" resC7 none = createNodesFromCache "b" entC8 none :=
  c8_createNodes_eq_fromCache "b" none resC7 entC8 rfl rfl rfl rfl

/-- C9: `set("bkt", [o1], [], true, "tok1")` followed by
`append("bkt", [o2], [], false, undefined)` leaves the entry with
`objects = [o1, o2]`, `isTruncated = false`, `continuationToken = none`
and `lastFetched` re-stamped to the append time; and on a key with no
entry, `append` equals `set` with the same arguments. -/
theorem c9_continuation_overwrites_truncation :
    (mapGet (((S3Cache.mk0.set 5 "bkt" [obj1] [] true (some "tok1") none).append
          9 "bkt" [obj2] [] false none none).cache) "bkt:"
        = some { objects := [obj1, obj2], prefixes := [], lastFetched := 9,
                 isTruncated := false, continuationToken := none })
      ∧ (∀ (s : S3Cache) (now : Int) (b : String) (objs : List S3Object)
          (prefs : List S3Prefix) (t : Bool) (tok : Option String) (p : Option String),
        mapGet s.cache (getCacheKey b p) = none →
        s.append now b objs prefs t tok p = s.set now b objs prefs t tok p) := by
  constructor
  · decide
  · intro s now b objs prefs t tok p h
    simp only [S3Cache.append, h]

/-- Instantiation of C9's append-as-set clause on the empty cache. -/
theorem c9_append_as_set_witness :
    S3Cache.mk0.append 3 "w" [obj1] [] false none none
      = S3Cache.mk0.set 3 "w" [obj1] [] false none none :=
  c9_continuation_overwrites_truncation.2 S3Cache.mk0 3 "w" [obj1] [] false none
    none (by decide)

/-- A one-entry cache with a short TTL, for freshness scenarios. -/
def cacheW : S3Cache := { cache := [("w:", entryEmpty)], ttl := 10 }

/-- C2: on a stored entry, `get` past the TTL returns absent and evicts
the entry (the entry count drops by one); `get` within the TTL returns
the stored entry and leaves the cache unchanged. -/
theorem c2_get_freshness (s : S3Cache) (now : Int) (b : String)
    (p : Option String) (e : CacheEntry)
    (hnd : (s.cache.map Prod.fst).Nodup)
    (hget : mapGet s.cache (getCacheKey b p) = some e) :
    (now - e.lastFetched > s.ttl →
        (s.get now b p).1 = none
          ∧ ((s.get now b p).2).getStats.1 + 1 = s.getStats.1)
      ∧ (now - e.lastFetched ≤ s.ttl → s.get now b p = (some e, s)) := by
  constructor
  · intro hstale
    simp only [S3Cache.get, hget]
    rw [if_pos hstale]
    refine ⟨rfl, ?_⟩
    simp only [S3Cache.getStats]
    exact mapDelete_length s.cache (getCacheKey b p) e hnd hget
  · intro hfresh
    simp only [S3Cache.get, hget]
    rw [if_neg (by omega)]

/-- Instantiation of C2 on a one-entry cache: the stale read evicts, the
fresh read is the identity. -/
theorem c2_get_freshness_witness :
    ((cacheW.get 100 "w" none).1 = none
        ∧ ((cacheW.get 100 "w" none).2).getStats.1 + 1 = cacheW.getStats.1)
      ∧ cacheW.get 5 "w" none = (some entryEmpty, cacheW) :=
  ⟨(c2_get_freshness cacheW 100 "w" none entryEmpty (by decide) (by decide)).1
      (by decide),
   (c2_get_freshness cacheW 5 "w" none entryEmpty (by decide) (by decide)).2
      (by decide)⟩

/-- C3: merging the same page twice leaves the entry's objects/prefixes
exactly as after one merge (in particular equal lengths); the merged
sequences have duplicate-free identities; for every identity the merge
keeps the first occurrence of `existing ++ page`; and when the existing
entries are duplicate-free they keep their positions as an unchanged
initial segment. -/
theorem c3_append_idempotent_dedup (s : S3Cache) (b : String)
    (p : Option String) (e : CacheEntry) (objs : List S3Object)
    (prefs : List S3Prefix) (t : Bool) (tok : Option String)
    (now1 now2 : Int)
    (hget : mapGet s.cache (getCacheKey b p) = some e) :
    ∃ e1 e2,
      mapGet (s.append now1 b objs prefs t tok p).cache (getCacheKey b p) = some e1
        ∧ mapGet ((s.append now1 b objs prefs t tok p).append now2 b objs prefs
            t tok p).cache (getCacheKey b p) = some e2
        ∧ e2.objects = e1.objects
        ∧ e2.prefixes = e1.prefixes
        ∧ e2.objects.length = e1.objects.length
        ∧ e2.prefixes.length = e1.prefixes.length
        ∧ (e1.objects.map fun o => o.key).Nodup
        ∧ (e1.prefixes.map fun q => q.pfx).Nodup
        ∧ (∀ k, e1.objects.find? (fun o => o.key == k)
            = (e.objects ++ objs).find? (fun o => o.key == k))
        ∧ (∀ k, e1.prefixes.find? (fun q => q.pfx == k)
            = (e.prefixes ++ prefs).find? (fun q => q.pfx == k))
        ∧ ((e.objects.map fun o => o.key).Nodup →
            e1.objects.take e.objects.length = e.objects) := by
  refine ⟨{ objects := uniqueBy (fun o => o.key) (e.objects ++ objs),
            prefixes := uniqueBy (fun q => q.pfx) (e.prefixes ++ prefs),
            lastFetched := now1, isTruncated := t, continuationToken := tok },
          { objects := uniqueBy (fun o => o.key) (e.objects ++ objs),
            prefixes := uniqueBy (fun q => q.pfx) (e.prefixes ++ prefs),
            lastFetched := now2, isTruncated := t, continuationToken := tok },
          ?_, ?_, rfl, rfl, rfl, rfl, uniqueBy_nodup _ _, uniqueBy_nodup _ _,
          fun k => uniqueBy_find? _ k _, fun k => uniqueBy_find? _ k _, ?_⟩
  · have h1 : (s.append now1 b objs prefs t tok p).cache
        = mapSet s.cache (getCacheKey b p)
            { objects := uniqueBy (fun o => o.key) (e.objects ++ objs),
              prefixes := uniqueBy (fun q => q.pfx) (e.prefixes ++ prefs),
              lastFetched := now1, isTruncated := t, continuationToken := tok } := by
      simp only [S3Cache.append, hget]
    rw [h1]
    exact mapGet_mapSet_self _ _ _
  · set s1 := s.append now1 b objs prefs t tok p with hs1
    have hg1 : mapGet s1.cache (getCacheKey b p)
        = some { objects := uniqueBy (fun o => o.key) (e.objects ++ objs),
                 prefixes := uniqueBy (fun q => q.pfx) (e.prefixes ++ prefs),
                 lastFetched := now1, isTruncated := t, continuationToken := tok } := by
      rw [hs1]
      simp only [S3Cache.append, hget]
      exact mapGet_mapSet_self _ _ _
    simp only [S3Cache.append, hg1]
    rw [mapGet_mapSet_self]
    simp [uniqueBy_append_self]
  · intro hnd
    rw [uniqueBy_append_of_nodup _ _ _ hnd]
    exact List.take_left _ _

/-- An existing truncated entry for C3's and C9-adjacent witnesses. -/
def entryW3 : CacheEntry :=
  { objects := [obj1], prefixes := [], lastFetched := 0,
    isTruncated := true, continuationToken := some "x" }

/-- A one-entry cache for the C3 witness. -/
def cacheW3 : S3Cache := { cache := [("w:", entryW3)], ttl := 10 }

/-- Instantiation of C3 on a one-entry cache and a two-object page. -/
theorem c3_append_idempotent_dedup_witness :
    ∃ e1, mapGet ((cacheW3.append 1 "w" [obj1, obj2] [pfx1] true (some "t")
        none).cache) (getCacheKey "w" none) = some e1
      ∧ (e1.objects.map fun o => o.key).Nodup := by
  obtain ⟨e1, e2, hg1, hg2, h⟩ := c3_append_idempotent_dedup cacheW3 "w" none
    entryW3 [obj1, obj2] [pfx1] true (some "t") 1 2 (by decide)
  exact ⟨e1, hg1, h.2.2.2.2.1⟩

/-- Dropping as many characters as a string's length empties it. -/
theorem strDrop_length_self (s : String) : strDrop s s.length = "" := by
  unfold strDrop
  rw [show s.length = s.data.length from rfl, List.drop_length]

/-- A prefix entry accepted by `readDirectory` has a non-empty name. -/
theorem dirEntryOfPrefix_name_ne_empty (pfx : Option String) (q : S3Prefix)
    (ent : String × FileType) (h : dirEntryOfPrefix pfx q = some ent) :
    ent.1 ≠ "" := by
  by_cases hb : (dropTrailingSlash
      (if optTruthy pfx then strDrop q.pfx ((pfx.getD "").length) else q.pfx) == "")
      = true
  · simp only [dirEntryOfPrefix] at h
    rw [if_pos hb] at h
    cases h
  · simp only [dirEntryOfPrefix] at h
    rw [if_neg hb] at h
    injection h with h'
    rw [← h']
    simpa using hb

/-- An object entry accepted by `readDirectory` has a non-empty name. -/
theorem dirEntryOfObject_name_ne_empty (pfx : Option String) (o : S3Object)
    (ent : String × FileType) (h : dirEntryOfObject pfx o = some ent) :
    ent.1 ≠ "" := by
  by_cases hb1 : strContainsSlash
      (if optTruthy pfx then strDrop o.key ((pfx.getD "").length) else o.key) = true
  · simp only [dirEntryOfObject] at h
    rw [if_pos hb1] at h
    cases h
  · by_cases hb2 : ((if optTruthy pfx then strDrop o.key ((pfx.getD "").length)
        else o.key) == "") = true
    · simp only [dirEntryOfObject] at h
      rw [if_neg hb1, if_pos hb2] at h
      cases h
    · simp only [dirEntryOfObject] at h
      rw [if_neg hb1, if_neg hb2] at h
      injection h with h'
      rw [← h']
      simpa using hb2

/-- C10: `readDirectory` never emits an empty name; the folder-marker
object whose key equals the requested prefix is excluded; a prefix entry
whose name becomes empty after stripping the parent prefix and the
trailing slash is excluded; an object that is not a direct child (its
stripped name still contains `/`) is excluded. -/
theorem c10_readdir_excludes_empty_and_nested :
    (∀ (pfx : Option String) (r : ListingResult) (ent : String × FileType),
        ent ∈ readDirEntries pfx r → ent.1 ≠ "")
      ∧ (∀ (p : String) (o : S3Object), o.key = p →
          dirEntryOfObject (some p) o = none)
      ∧ (∀ (p : String) (q : S3Prefix), p ≠ "" →
          dropTrailingSlash (strDrop q.pfx p.length) = "" →
          dirEntryOfPrefix (some p) q = none)
      ∧ (∀ (p : String) (o : S3Object), p ≠ "" →
          strContainsSlash (strDrop o.key p.length) = true →
          dirEntryOfObject (some p) o = none) := by
  refine ⟨?_, ?_, ?_, ?_⟩
  · intro pfx r ent hent
    rcases List.mem_append.mp hent with h | h
    · obtain ⟨q, _, hq⟩ := List.mem_filterMap.mp h
      exact dirEntryOfPrefix_name_ne_empty pfx q ent hq
    · obtain ⟨o, _, ho⟩ := List.mem_filterMap.mp h
      exact dirEntryOfObject_name_ne_empty pfx o ent ho
  · intro p o hkey
    by_cases hp : p = ""
    · simp [dirEntryOfObject, optTruthy, hp, hkey, strContainsSlash]
    · simp [dirEntryOfObject, optTruthy, hp, hkey, strDrop_length_self,
        strContainsSlash]
  · intro p q hp hname
    simp [dirEntryOfPrefix, optTruthy, hp, hname]
  · intro p o hp hslash
    simp [dirEntryOfObject, optTruthy, hp, hslash]

/-- Instantiation of C10: the folder-marker object `a/` and the nested
object `a/b/c.txt` are both excluded from a listing of prefix `a/`. -/
theorem c10_readdir_excludes_witness :
    dirEntryOfObject (some "a/") { key := "a/", size := 0 } = none
      ∧ dirEntryOfObject (some "a/") { key := "a/b/c.txt", size := 1 } = none :=
  ⟨c10_readdir_excludes_empty_and_nested.2.1 "a/" _ rfl,
   c10_readdir_excludes_empty_and_nested.2.2.2 "a/" _ (by decide) (by decide)⟩

/-- An oracle returning one direct child of `a/`. -/
def envC4 : ListFn := fun _ _ _ =>
  { objects := [{ key := "a/f.txt", size := 1 }], prefixes := [],
    isTruncated := false, continuationToken := none }

/-- An oracle returning an empty listing. -/
def envC4e : ListFn := fun _ _ _ =>
  { objects := [], prefixes := [], isTruncated := false,
    continuationToken := none }

/-- A cache holding a fresh entry for key `(b, "a/")`. -/
def cacheC4 : S3Cache := { cache := [("b:a/", entryEmpty)], ttl := 10 }

/-- C4 (counterexample): with a fresh cache entry for the requested key,
the virtual-filesystem `readDirectory` still issues a `listObjects` call
(fetch count 1) and its output tracks the remote listing, not the cached
entry — the provider holds no reference to the cache. -/
theorem c4_fs_consumer_ignores_cache :
    (cacheC4.get 0 "b" (some "a/")).1 = some entryEmpty
      ∧ (readDirectoryM envC4 "b" (some "a/")).2 = 1
      ∧ (readDirectoryM envC4 "b" (some "a/")).1
          ≠ (readDirectoryM envC4e "b" (some "a/")).1 := by
  refine ⟨by decide, by decide, by decide⟩

/-- C4 (amended): the tree consumer's `getBucketContents` and
`getPrefixContents` render from the cache with zero fetches on a fresh
hit with no continuation token, and fetch exactly once then populate via
`set` on a miss; the virtual-filesystem `readDirectory` issues exactly
one `listObjects` call on every request, never consulting the cache. -/
theorem c4_tree_consults_cache_fs_does_not :
    (∀ (env : ListFn) (s : S3Cache) (now : Int) (b : String)
        (tok : Option String) (e : CacheEntry),
      (s.get now b none).1 = some e → optTruthy tok = false →
      getBucketContentsM env s now b tok
        = (createNodesFromCache b e none, (s.get now b none).2, 0))
      ∧ (∀ (env : ListFn) (s : S3Cache) (now : Int) (b pfx : String)
          (tok : Option String) (e : CacheEntry),
        (s.get now b (some pfx)).1 = some e → optTruthy tok = false →
        getPrefixContentsM env s now b pfx tok
          = (createNodesFromCache b e (some pfx), (s.get now b (some pfx)).2, 0))
      ∧ (∀ (env : ListFn) (s : S3Cache) (now : Int) (b : String),
        (s.get now b none).1 = none →
        getBucketContentsM env s now b none
          = (createNodes b (env b none none) none,
             ((s.get now b none).2).set now b (env b none none).objects
               (env b none none).prefixes (env b none none).isTruncated
               (env b none none).continuationToken none, 1))
      ∧ (∀ (env : ListFn) (s : S3Cache) (now : Int) (b pfx : String),
        (s.get now b (some pfx)).1 = none →
        getPrefixContentsM env s now b pfx none
          = (createNodes b (env b (some pfx) none) (some pfx),
             ((s.get now b (some pfx)).2).set now b (env b (some pfx) none).objects
               (env b (some pfx) none).prefixes (env b (some pfx) none).isTruncated
               (env b (some pfx) none).continuationToken (some pfx), 1))
      ∧ (∀ (env : ListFn) (b : String) (k : Option String),
        (readDirectoryM env b k).2 = 1) := by
  refine ⟨?_, ?_, ?_, ?_, ?_⟩
  · intro env s now b tok e h htok
    simp only [getBucketContentsM, h, htok, Bool.false_eq_true, if_false]
  · intro env s now b pfx tok e h htok
    simp only [getPrefixContentsM, h, htok, Bool.false_eq_true, if_false]
  · intro env s now b h
    simp only [getBucketContentsM, h, fetchAndPopulate, optTruthy,
      Bool.false_eq_true, if_false]
  · intro env s now b pfx h
    simp only [getPrefixContentsM, h, fetchAndPopulate, optTruthy,
      Bool.false_eq_true, if_false]
  · intro env b k
    rfl

/-- Instantiation of the amended C4: a fresh hit renders from cache with
zero fetches. -/
theorem c4_tree_consults_cache_witness :
    getPrefixContentsM envC4 cacheC4 0 "b" "a/" none
      = (createNodesFromCache "b" entryEmpty (some "a/"),
         (cacheC4.get 0 "b" (some "a/")).2, 0) :=
  c4_tree_consults_cache_fs_does_not.2.1 envC4 cacheC4 0 "b" "a/" none
    entryEmpty (by decide) (by decide)

end S3x
